import Mathlib

/-!
Shallow embedding of the adaptive merge sort of `src/mergesort.c`
(John Lindgren, 2017), together with the hybrid-variant merge of
`src/unnamed/part_002` and the simple top-down recursive variant of
`src/unnamed/part_001`, and proofs of the specification's claims about
them.

The C code manipulates byte ranges of an array; the embedding works at
the element level.  A C comparator `compare : (a, b) -> int` is modelled
as `cmp : α → α → Int`; the code only ever tests `compare(x,y) < 1`
("x not greater than y") and its negation `compare(x,y) > 0`, so the
algorithm definitions take the derived Boolean `le x y := cmp x y < 1`.
-/

namespace AdaptiveMergesort

variable {α : Type}

/-- Boolean "not greater than" derived from a C three-way comparator:
`compare(a,b) < 1` in the source. -/
def cle (cmp : α → α → Int) (a b : α) : Bool := decide (cmp a b < 1)

/-- Scan loop of `insert_head` (src/mergesort.c:38-99, generic case):
starting after the first element of the sorted remainder, find the first
element `z` with `compare(x, z) < 1` and place `x` right before it
(at the end if there is none). -/
def oins (le : α → α → Bool) (x : α) : List α → List α
  | [] => [x]
  | z :: zs => if le x z then x :: z :: zs else z :: oins le x zs

/-- Embedding of `insert_head` (src/mergesort.c:38-99) acting on the
region `x :: run`: the head element `x` is rotated into place within
`run`; the first element of `run` is skipped without a comparison
(the caller knows `compare(x, run.head) > 0`). -/
def insert_head (le : α → α → Bool) (x : α) (run : List α) : List α :=
  match run with
  | [] => [x]
  | y :: rest => y :: oins le x rest

/-- Interleaving loop of `do_merge` (src/mergesort.c:131-181) followed by
the "copy remainder of list a" step: repeatedly emit the right-run head
while it is strictly smaller than the left-run head (`compare(a,b) > 0`),
then emit the left-run head, ties favouring the left run
(`compare(a,b) < 1`).  The remainder of whichever run survives follows. -/
def mergePair (le : α → α → Bool) : List α → List α → List α
  | [], bs => bs
  | a :: as, bs =>
      bs.takeWhile (fun b => !(le a b)) ++
        a :: mergePair le as (bs.dropWhile (fun b => !(le a b)))

/-- Embedding of `do_merge` (src/mergesort.c:103-182), merging the two
adjacent sorted runs `A = [head, mid)` and `B = [mid, tail)`.  The single
fast path of this variant handles strictly separate reversed runs: when
`compare(A.head, B.last) > 0` the right run is shifted left and the left
run appended after it. -/
def do_merge (le : α → α → Bool) (A B : List α) : List α :=
  match A, B with
  | a :: _, b :: bs =>
      if le a (bs.getLastD b) = false then B ++ A else mergePair le A B
  | _, _ => mergePair le A B

/-- Merge/collapse loops of `mergesort` (src/mergesort.c:228-294), for a
stack `T :: rest` holding at least one run.  The state is the new run
`[head, mid)`, the topmost stacked run `T = [mid, tail)` and the runs
`rest` to its right.  The inner loop performs a 3-way merge of `T` with
its right neighbour while the new run is longer than that neighbour
(`(mid - head) <= (tail2 - tail)` fails); the outer loop then either
stops (pushing is the caller's job) when input remains and the new run
is at most half its right neighbour, or merges the new run with `T` and
repeats. -/
def collapseStep (le : α → α → Bool) (atStart : Bool) :
    List α → List α → List (List α) → List α × List (List α)
  | run, T, [] =>
      if atStart = false ∧ run.length ≤ T.length / 2 then (run, [T])
      else (do_merge le run T, [])
  | run, T, T2 :: rest =>
      if T2.length < run.length then
        collapseStep le atStart run (do_merge le T T2) rest
      else if atStart = false ∧ run.length ≤ T.length / 2 then
        (run, T :: T2 :: rest)
      else collapseStep le atStart (do_merge le run T) T2 rest

/-- Embedding of the whole `while (n_div >= 1)` loop of
src/mergesort.c:228-294, including the empty-stack case (the loop body
does not run). -/
def collapse (le : α → α → Bool) (atStart : Bool) (run : List α) :
    List (List α) → List α × List (List α)
  | [] => (run, [])
  | T :: rest => collapseStep le atStart run T rest

/-- Embedding of the outer do-while loop of `mergesort`
(src/mergesort.c:206-300).  The unprocessed prefix is carried reversed
(`x :: r` with `x` the element just left of the current run), matching
the right-to-left scan.  An ascending element extends the run; a descent
with a short run triggers `insert_head`; a descent with a run of length
at least 4 finalises the run (collapse, then push); exhausted input
collapses everything with `head == items`. -/
def sortStep (le : α → α → Bool) :
    List α → List (List α) → List α → List (List α)
  | run, stack, [] =>
      let p := collapse le true run stack
      p.1 :: p.2
  | run, stack, x :: r =>
      if le x (run.headD x) then sortStep le (x :: run) stack r
      else if run.length < 4 then sortStep le (insert_head le x run) stack r
      else
        let p := collapse le false run stack
        sortStep le [x] (p.1 :: p.2) r

/-- Embedding of `mergesort` (src/mergesort.c:186-304).  A list with 0 or
1 element is returned unchanged; otherwise the run stack is processed to
a single run covering the whole list. -/
def mergesort (le : α → α → Bool) (l : List α) : List α :=
  if l.length < 2 then l
  else
    match l.reverse with
    | [] => l
    | x :: r => (sortStep le [x] [] r).flatten

/-- Trace variant of `sortStep`: it records the contents of the run
stack immediately after each push (`div[n_div] = mid; n_div++` in
src/mergesort.c:296-298), newest-push first inside each recorded stack,
in push order. -/
def sortStepT (le : α → α → Bool) :
    List α → List (List α) → List α → List (List (List α))
  | run, stack, [] =>
      let p := collapse le true run stack
      [p.1 :: p.2]
  | run, stack, x :: r =>
      if le x (run.headD x) then sortStepT le (x :: run) stack r
      else if run.length < 4 then sortStepT le (insert_head le x run) stack r
      else
        let p := collapse le false run stack
        (p.1 :: p.2) :: sortStepT le [x] (p.1 :: p.2) r

/-- Sequence of run-stack states of `mergesort le l` right after each
push of a new run, in push order. -/
def mergesortTrace (le : α → α → Bool) (l : List α) :
    List (List (List α)) :=
  if l.length < 2 then []
  else
    match l.reverse with
    | [] => []
    | x :: r => sortStepT le [x] [] r

/-!
Counting variants.  Each `compare` call of the C source counts as one
comparison; each element-sized `memcpy`/`memmove` word or element store
counts as one move.  The result component always mirrors the plain
definition.
-/

/-- Counting variant of `oins`: result, comparisons, elements passed. -/
def oinsC (le : α → α → Bool) (x : α) : List α → List α × Nat × Nat
  | [] => ([x], 0, 0)
  | z :: zs =>
      if le x z then (x :: z :: zs, 1, 0)
      else
        let r := oinsC le x zs
        (z :: r.1, r.2.1 + 1, r.2.2 + 1)

/-- Counting variant of `insert_head`: moves are one copy of `x` out,
one shift per element passed over (plus the unconditionally shifted
first element), and one copy of `x` back in. -/
def insert_headC (le : α → α → Bool) (x : α) (run : List α) :
    List α × Nat × Nat :=
  match run with
  | [] => ([x], 0, 0)
  | y :: rest =>
      let r := oinsC le x rest
      (y :: r.1, r.2.1, r.2.2 + 3)

/-- Counting variant of `mergePair`: one comparison and one element
store per loop iteration, plus one store per element of the left-run
remainder. -/
def mergePairC (le : α → α → Bool) : List α → List α → List α × Nat × Nat
  | [], bs => (bs, 0, 0)
  | a :: as, bs =>
      let t := bs.takeWhile (fun b => !(le a b))
      match bs.dropWhile (fun b => !(le a b)) with
      | [] => (t ++ a :: as, t.length, t.length + as.length + 1)
      | b :: bs2 =>
          let r := mergePairC le as (b :: bs2)
          (t ++ a :: r.1, t.length + 1 + r.2.1, t.length + 1 + r.2.2)

/-- Counting variant of `do_merge` (src/mergesort.c:103-182): the left
run is always copied to the scratch buffer (`A.length` moves), the fast
path costs one comparison and shifts the right run then copies the left
run back, the general path adds the interleaving costs. -/
def do_mergeC (le : α → α → Bool) (A B : List α) : List α × Nat × Nat :=
  match A, B with
  | a :: _, b :: bs =>
      if le a (bs.getLastD b) = false then
        (B ++ A, 1, A.length + B.length + A.length)
      else
        let m := mergePairC le A B
        (m.1, m.2.1 + 1, m.2.2 + A.length)
  | _, _ =>
      let m := mergePairC le A B
      (m.1, m.2.1, m.2.2)

/-- Counting embedding of the hybrid variant's `do_merge`
(src/unnamed/part_002:86-161).  This variant first checks
`compare(mid - size, mid) < 1` — left run's last element not greater
than right run's first — and returns immediately, with no data
movement, when it holds; the rest matches `do_mergeC` (with the buffer
copied after the reversed-runs check). -/
def do_merge2C (le : α → α → Bool) (A B : List α) : List α × Nat × Nat :=
  match A, B with
  | a :: as, b :: bs =>
      if le (as.getLastD a) b then (A ++ B, 1, 0)
      else if le a (bs.getLastD b) = false then
        (B ++ A, 2, A.length + B.length + A.length)
      else
        let m := mergePairC le A B
        (m.1, m.2.1 + 2, m.2.2 + A.length)
  | _, _ => (A ++ B, 0, 0)

/-- Counting variant of `collapseStep`. -/
def collapseStepC (le : α → α → Bool) (atStart : Bool) :
    List α → List α → List (List α) → (List α × List (List α)) × Nat × Nat
  | run, T, [] =>
      if atStart = false ∧ run.length ≤ T.length / 2 then ((run, [T]), 0, 0)
      else
        let m := do_mergeC le run T
        ((m.1, []), m.2.1, m.2.2)
  | run, T, T2 :: rest =>
      if T2.length < run.length then
        let m := do_mergeC le T T2
        let r := collapseStepC le atStart run m.1 rest
        (r.1, m.2.1 + r.2.1, m.2.2 + r.2.2)
      else if atStart = false ∧ run.length ≤ T.length / 2 then
        ((run, T :: T2 :: rest), 0, 0)
      else
        let m := do_mergeC le run T
        let r := collapseStepC le atStart m.1 T2 rest
        (r.1, m.2.1 + r.2.1, m.2.2 + r.2.2)

/-- Counting variant of `collapse`. -/
def collapseC (le : α → α → Bool) (atStart : Bool) (run : List α) :
    List (List α) → (List α × List (List α)) × Nat × Nat
  | [] => ((run, []), 0, 0)
  | T :: rest => collapseStepC le atStart run T rest

/-- Counting variant of `sortStep`: one comparison per scan step. -/
def sortStepC (le : α → α → Bool) :
    List α → List (List α) → List α → List (List α) × Nat × Nat
  | run, stack, [] =>
      let p := collapseC le true run stack
      (p.1.1 :: p.1.2, p.2.1, p.2.2)
  | run, stack, x :: r =>
      if le x (run.headD x) then
        let s := sortStepC le (x :: run) stack r
        (s.1, s.2.1 + 1, s.2.2)
      else if run.length < 4 then
        let i := insert_headC le x run
        let s := sortStepC le i.1 stack r
        (s.1, s.2.1 + 1 + i.2.1, s.2.2 + i.2.2)
      else
        let p := collapseC le false run stack
        let s := sortStepC le [x] (p.1.1 :: p.1.2) r
        (s.1, s.2.1 + 1 + p.2.1, s.2.2 + p.2.2)

/-- Counting embedding of `mergesort`: final contents plus the total
numbers of comparator calls and element moves performed. -/
def mergesortC (le : α → α → Bool) (l : List α) : List α × Nat × Nat :=
  if l.length < 2 then (l, 0, 0)
  else
    match l.reverse with
    | [] => (l, 0, 0)
    | x :: r =>
        let s := sortStepC le [x] [] r
        (s.1.flatten, s.2.1, s.2.2)

/-- Embedding of the simple top-down recursive two-way merge sort of
src/unnamed/part_001:250-287: split at `n_items / 2`, sort both halves
recursively, merge with the stable left-biased merge loop (take from
the left while `compare(a,b) < 1`). -/
def mergesortTD (le : α → α → Bool) (l : List α) : List α :=
  if h : l.length < 2 then l
  else
    mergePair le (mergesortTD le (l.take (l.length / 2)))
      (mergesortTD le (l.drop (l.length / 2)))
termination_by l.length
decreasing_by
  · simp only [List.length_take]
    omega
  · simp only [List.length_drop]
    omega

/-- Run-stack invariant of src/mergesort.c:200-204 ("Each run is at
least 2x the length of its left-hand neighbor"): every run on the
stack, listed leftmost (most recently pushed) first, is at most half as
long as its immediate right-hand neighbour. -/
abbrev StackInv (s : List (List α)) : Prop :=
  List.Chain' (fun a b => a.length ≤ b.length / 2) s

/-- All runs of a stack are nonempty ranges. -/
abbrev AllNE (s : List (List α)) : Prop := ∀ r ∈ s, r ≠ []

/-- Total number of elements covered by a run stack. -/
def sumLens (s : List (List α)) : Nat := (s.map List.length).sum

/-- Integer three-way comparator used for concrete witnesses: `a - b`
(the sign of `a - b` reports the ordering of small integers). -/
def cmpInt (a b : Int) : Int := a - b

/-- Comparator on key-tag pairs that compares only the key, used for
the stability witnesses. -/
def cmpKey (p q : Int × Nat) : Int := cmpInt p.1 q.1

/-!
Basic order-theoretic notions about a Boolean "not greater than"
relation, as induced by a valid strict-weak-ordering comparator.
-/

/-- Propositional form of the Boolean relation. -/
abbrev leP (le : α → α → Bool) (a b : α) : Prop := le a b = true

/-- Ascending chain: the sortedness notion used throughout
(`!less(S[i+1], S[i])` between all adjacent elements). -/
abbrev Asc (le : α → α → Bool) : List α → Prop := List.Chain' (leP le)

/-- Totality of the Boolean relation (holds for every valid
strict-weak-ordering comparator). -/
abbrev TotB (le : α → α → Bool) : Prop := ∀ a b, le a b = true ∨ le b a = true

/-- Transitivity of the Boolean relation (holds for every valid
strict-weak-ordering comparator). -/
abbrev TransB (le : α → α → Bool) : Prop :=
  ∀ a b c, le a b = true → le b c = true → le a c = true

/-- Test for membership in the comparator-equivalence class of `c`. -/
abbrev classEq (le : α → α → Bool) (c x : α) : Bool := le c x && le x c

/-- Two lists have, for every comparator-equivalence class, the same
elements of that class in the same order.  This is the precise sense in
which a stable sort rearranges a list. -/
abbrev SameClasses (le : α → α → Bool) (l l' : List α) : Prop :=
  ∀ c, l.filter (classEq le c) = l'.filter (classEq le c)

/-- Strict-weak-ordering hypothesis on a three-way comparator: the signs
of `cmp a b` and `cmp b a` are opposite. -/
abbrev CmpAntisym (cmp : α → α → Int) : Prop :=
  ∀ a b, cmp a b < 0 ↔ 0 < cmp b a

/-- Strict-weak-ordering hypothesis on a three-way comparator:
"not greater" is transitive (equivalently, the strict order and its
incomparability relation are both transitive). -/
abbrev CmpTrans (cmp : α → α → Int) : Prop :=
  ∀ a b c, cmp a b < 1 → cmp b c < 1 → cmp a c < 1

theorem cle_total {cmp : α → α → Int} (h : CmpAntisym cmp) :
    TotB (cle cmp) := by
  intro a b
  by_cases hab : cmp a b < 1
  · exact Or.inl (by simp [cle, hab])
  · have : 0 < cmp a b := by omega
    have : cmp b a < 0 := (h b a).mpr this
    exact Or.inr (by simp [cle]; omega)

theorem cle_trans {cmp : α → α → Int} (h : CmpTrans cmp) :
    TransB (cle cmp) := by
  intro a b c hab hbc
  simp only [cle, decide_eq_true_eq] at *
  exact h a b c hab hbc

theorem totB_refl {le : α → α → Bool} (h : TotB le) (a : α) :
    le a a = true := by
  rcases h a a with h' | h' <;> exact h'

/-!
Unfolding equations for `mergePair` in the shape of the C merge loop.
-/

theorem mergePair_nil_right {le : α → α → Bool} :
    ∀ as : List α, mergePair le as [] = as
  | [] => rfl
  | a :: as => by
      simp [mergePair, mergePair_nil_right as]

theorem mergePair_cons_cons {le : α → α → Bool} (a b : α)
    (as bs : List α) :
    mergePair le (a :: as) (b :: bs) =
      if le a b then a :: mergePair le as (b :: bs)
      else b :: mergePair le (a :: as) bs := by
  by_cases h : le a b
  · simp [mergePair, List.takeWhile_cons, List.dropWhile_cons, h]
  · simp only [Bool.not_eq_true] at h
    simp [mergePair, List.takeWhile_cons, List.dropWhile_cons, h]

/-!
Permutation lemmas: every operation of the algorithm rearranges the
elements it touches (claim C3 needs no comparator hypotheses at all).
-/

theorem oins_perm {le : α → α → Bool} (x : α) :
    ∀ l : List α, (oins le x l).Perm (x :: l)
  | [] => List.Perm.refl _
  | z :: zs => by
      unfold oins
      by_cases h : le x z
      · simp [h]
      · rw [if_neg h]
        exact ((oins_perm x zs).cons z).trans (List.Perm.swap x z zs)

theorem insert_head_perm {le : α → α → Bool} (x : α) (run : List α) :
    (insert_head le x run).Perm (x :: run) := by
  match run with
  | [] => exact List.Perm.refl _
  | y :: rest =>
      exact ((oins_perm x rest).cons y).trans (List.Perm.swap x y rest)

theorem mergePair_perm {le : α → α → Bool} :
    ∀ as bs : List α, (mergePair le as bs).Perm (as ++ bs)
  | [], bs => by simp [mergePair]
  | a :: as, bs => by
      unfold mergePair
      have hsplit := List.takeWhile_append_dropWhile
        (p := fun b => !(le a b)) (l := bs)
      have h1 : (bs.takeWhile (fun b => !(le a b)) ++
          a :: mergePair le as (bs.dropWhile (fun b => !(le a b)))).Perm
          (a :: (bs.takeWhile (fun b => !(le a b)) ++
            mergePair le as (bs.dropWhile (fun b => !(le a b))))) :=
        List.perm_middle
      refine h1.trans (List.Perm.cons a ?_)
      have h3 : (bs.takeWhile (fun b => !(le a b)) ++
          mergePair le as (bs.dropWhile (fun b => !(le a b)))).Perm
          (bs.takeWhile (fun b => !(le a b)) ++
            (as ++ bs.dropWhile (fun b => !(le a b)))) :=
        (mergePair_perm as _).append_left _
      refine h3.trans ?_
      have h4 : (bs.takeWhile (fun b => !(le a b)) ++
          (as ++ bs.dropWhile (fun b => !(le a b)))).Perm
          (as ++ (bs.takeWhile (fun b => !(le a b)) ++
            bs.dropWhile (fun b => !(le a b)))) := by
        rw [← List.append_assoc, ← List.append_assoc]
        exact List.perm_append_comm.append_right _
      rw [hsplit] at h4
      exact h4

theorem do_merge_perm {le : α → α → Bool} (A B : List α) :
    (do_merge le A B).Perm (A ++ B) := by
  match A, B with
  | a :: as, b :: bs =>
      show (if le a (bs.getLastD b) = false then (b :: bs) ++ (a :: as)
        else mergePair le (a :: as) (b :: bs)).Perm _
      by_cases h : le a (bs.getLastD b) = false
      · rw [if_pos h]
        exact List.perm_append_comm
      · rw [if_neg h]
        exact mergePair_perm _ _
  | [], B => simp [do_merge, mergePair]
  | a :: as, [] =>
      show (mergePair le (a :: as) []).Perm _
      rw [mergePair_nil_right]
      simp

theorem do_merge_length {le : α → α → Bool} (A B : List α) :
    (do_merge le A B).length = A.length + B.length := by
  have := (@do_merge_perm _ le A B).length_eq
  simpa using this

theorem do_merge_ne {le : α → α → Bool} {A : List α} (B : List α)
    (h : A ≠ []) : do_merge le A B ≠ [] := by
  intro hc
  have hlen := @do_merge_length _ le A B
  rw [hc] at hlen
  simp only [List.length_nil] at hlen
  have hA : A.length = 0 := by omega
  exact h (List.length_eq_zero.mp hA)

theorem collapseStep_flat_perm {le : α → α → Bool} (atStart : Bool) :
    ∀ (rest : List (List α)) (run T : List α),
      ((collapseStep le atStart run T rest).1 ++
        (collapseStep le atStart run T rest).2.flatten).Perm
        (run ++ (T ++ rest.flatten))
  | [], run, T => by
      unfold collapseStep
      by_cases h : atStart = false ∧ run.length ≤ T.length / 2
      · rw [if_pos h]
        simp
      · rw [if_neg h]
        simpa using @do_merge_perm _ le run T
  | T2 :: rest, run, T => by
      unfold collapseStep
      by_cases h1 : T2.length < run.length
      · rw [if_pos h1]
        have ih := @collapseStep_flat_perm le atStart rest run (do_merge le T T2)
        refine ih.trans ?_
        have hm : (do_merge le T T2).Perm (T ++ T2) := do_merge_perm T T2
        have : (run ++ (do_merge le T T2 ++ rest.flatten)).Perm
            (run ++ ((T ++ T2) ++ rest.flatten)) :=
          ((hm.append_right rest.flatten).append_left run)
        refine this.trans ?_
        simp [List.append_assoc]
      · rw [if_neg h1]
        by_cases h2 : atStart = false ∧ run.length ≤ T.length / 2
        · rw [if_pos h2]
          simp [List.append_assoc]
        · rw [if_neg h2]
          have ih := @collapseStep_flat_perm le atStart rest (do_merge le run T) T2
          refine ih.trans ?_
          have hm : (do_merge le run T).Perm (run ++ T) := do_merge_perm run T
          have : ((do_merge le run T) ++ (T2 ++ rest.flatten)).Perm
              ((run ++ T) ++ (T2 ++ rest.flatten)) :=
            hm.append_right _
          refine this.trans ?_
          simp [List.append_assoc]

theorem collapse_flat_perm {le : α → α → Bool} (atStart : Bool)
    (run : List α) (stack : List (List α)) :
    ((collapse le atStart run stack).1 ++
      (collapse le atStart run stack).2.flatten).Perm
      (run ++ stack.flatten) := by
  cases stack with
  | nil => simp [collapse]
  | cons T rest => exact collapseStep_flat_perm atStart rest run T

theorem sortStep_flat_perm {le : α → α → Bool} :
    ∀ (r : List α) (run : List α) (stack : List (List α)),
      ((sortStep le run stack r).flatten).Perm
        (r.reverse ++ (run ++ stack.flatten))
  | [], run, stack => by
      unfold sortStep
      simpa using @collapse_flat_perm _ le true run stack
  | x :: r, run, stack => by
      unfold sortStep
      by_cases h1 : le x (run.headD x)
      · rw [if_pos h1]
        have ih := @sortStep_flat_perm le r (x :: run) stack
        refine ih.trans ?_
        simp [List.append_assoc]
      · rw [if_neg h1]
        by_cases h2 : run.length < 4
        · rw [if_pos h2]
          have ih := @sortStep_flat_perm le r (insert_head le x run) stack
          refine ih.trans ?_
          have hperm : ((insert_head le x run) ++ stack.flatten).Perm
              ((x :: run) ++ stack.flatten) :=
            (insert_head_perm x run).append_right _
          refine (hperm.append_left r.reverse).trans ?_
          simp [List.append_assoc]
        · rw [if_neg h2]
          have ih := @sortStep_flat_perm le r [x]
            ((collapse le false run stack).1 :: (collapse le false run stack).2)
          refine ih.trans ?_
          have hc := @collapse_flat_perm _ le false run stack
          have : ([x] ++ ((collapse le false run stack).1 ::
              (collapse le false run stack).2).flatten).Perm
              ([x] ++ (run ++ stack.flatten)) := by
            simpa using hc.cons x
          refine (this.append_left r.reverse).trans ?_
          simp [List.append_assoc]

theorem mergesort_perm {le : α → α → Bool} (l : List α) :
    (mergesort le l).Perm l := by
  unfold mergesort
  by_cases h : l.length < 2
  · rw [if_pos h]
  · rw [if_neg h]
    have hrev : l.reverse.reverse = l := List.reverse_reverse l
    cases hl : l.reverse with
    | nil => simp
    | cons x r =>
        have := @sortStep_flat_perm _ le r [x] []
        simp only [List.flatten_nil, List.append_nil] at this
        refine this.trans ?_
        have : r.reverse ++ [x] = l := by
          have : (x :: r).reverse = l := by rw [← hl, hrev]
          simpa [List.reverse_cons] using this
        rw [← this]

/-!
Sortedness: every run manipulated by the algorithm is an ascending
chain, provided the comparator is a valid strict weak ordering.
-/

theorem mergePair_eq_merge {le : α → α → Bool} :
    ∀ as bs : List α, mergePair le as bs = as.merge bs le
  | [], bs => by rw [List.nil_merge]; rfl
  | _ :: _, [] => by rw [mergePair_nil_right, List.merge_right]
  | a :: as, b :: bs => by
      rw [mergePair_cons_cons, List.cons_merge_cons]
      by_cases h : le a b
      · rw [if_pos h, if_pos h, mergePair_eq_merge as (b :: bs)]
      · rw [if_neg h, if_neg h, mergePair_eq_merge (a :: as) bs]
termination_by as bs => as.length + bs.length
decreasing_by
  · simp only [List.length_cons]
    omega
  · simp only [List.length_cons]
    omega

theorem asc_head_le {le : α → α → Bool} (htr : TransB le) {a : α} :
    ∀ {l : List α}, Asc le (a :: l) → ∀ x ∈ l, le a x = true := by
  intro l
  induction l with
  | nil => intro _ x hx; cases hx
  | cons w ws ih =>
      intro h x hx
      have h1 : leP le a w := (List.chain'_cons.mp h).1
      have h2 : Asc le (w :: ws) := (List.chain'_cons.mp h).2
      rcases List.mem_cons.mp hx with hx | hx
      · subst hx
        exact h1
      · have h3 : Asc le (a :: ws) := by
          rcases ws with _ | ⟨v, vs⟩
          · simp [Asc]
          · have h4 : leP le w v := (List.chain'_cons.mp h2).1
            exact List.chain'_cons.mpr ⟨htr a w v h1 h4,
              (List.chain'_cons.mp h2).2⟩
        exact ih h3 x hx

theorem asc_le_last {le : α → α → Bool} (htr : TransB le)
    (htot : TotB le) :
    ∀ (bs : List α) (b : α), Asc le (b :: bs) →
      ∀ x ∈ b :: bs, le x (bs.getLastD b) = true
  | [], b => by
      intro _ x hx
      rcases List.mem_cons.mp hx with hx | hx
      · subst hx
        simpa using totB_refl htot x
      · cases hx
  | w :: ws, b => by
      intro h x hx
      have h1 : leP le b w := (List.chain'_cons.mp h).1
      have h2 : Asc le (w :: ws) := (List.chain'_cons.mp h).2
      rw [List.getLastD_cons]
      rcases List.mem_cons.mp hx with hx | hx
      · subst hx
        exact htr x w _ h1 (asc_le_last htr htot ws w h2 w (by simp))
      · exact asc_le_last htr htot ws w h2 x hx

theorem getLast?_eq_getLastD :
    ∀ (bs : List α) (b : α), (b :: bs).getLast? = some (bs.getLastD b)
  | [], _ => rfl
  | w :: ws, b => by
      rw [List.getLastD_cons]
      exact getLast?_eq_getLastD ws w

theorem mergePair_asc {le : α → α → Bool} (htr : TransB le)
    (htot : TotB le) {as bs : List α} (ha : Asc le as) (hb : Asc le bs) :
    Asc le (mergePair le as bs) := by
  haveI : IsTrans α (leP le) := ⟨fun a b c => htr a b c⟩
  rw [mergePair_eq_merge]
  have hp := @List.sorted_merge _ le (fun a b c => htr a b c)
    (fun a b => by rcases htot a b with h | h <;> simp [h]) as bs
    (List.chain'_iff_pairwise.mp ha) (List.chain'_iff_pairwise.mp hb)
  exact List.chain'_iff_pairwise.mpr hp

theorem do_merge_asc {le : α → α → Bool} (htr : TransB le)
    (htot : TotB le) {A B : List α} (hA : Asc le A) (hB : Asc le B) :
    Asc le (do_merge le A B) := by
  match A, B with
  | a :: as, b :: bs =>
      show Asc le (if le a (bs.getLastD b) = false then
        (b :: bs) ++ (a :: as) else mergePair le (a :: as) (b :: bs))
      by_cases h : le a (bs.getLastD b) = false
      · rw [if_pos h]
        refine List.Chain'.append hB hA ?_
        intro p hp q hq
        rw [getLast?_eq_getLastD] at hp
        simp only [Option.mem_def, Option.some_inj] at hp
        simp only [List.head?_cons, Option.mem_def, Option.some_inj] at hq
        subst hp; subst hq
        rcases htot (bs.getLastD b) a with h' | h'
        · exact h'
        · rw [h] at h'
          cases h'
      · rw [if_neg h]
        exact mergePair_asc htr htot hA hB
  | [], B =>
      show Asc le (mergePair le [] B)
      simpa [mergePair] using hB
  | a :: as, [] =>
      show Asc le (mergePair le (a :: as) [])
      rw [mergePair_nil_right]
      exact hA

theorem oins_asc {le : α → α → Bool} (htr : TransB le) (htot : TotB le)
    (x : α) : ∀ {l : List α}, Asc le l → Asc le (oins le x l) := by
  intro l
  induction l with
  | nil => intro _; simp [oins, Asc]
  | cons z zs ih =>
      intro h
      show Asc le (if le x z then x :: z :: zs else z :: oins le x zs)
      by_cases hxz : le x z
      · rw [if_pos hxz]
        exact List.chain'_cons.mpr ⟨hxz, h⟩
      · rw [if_neg hxz]
        have hzs : Asc le zs := h.tail
        refine List.chain'_cons'.mpr ⟨?_, ih hzs⟩
        intro y hy
        rcases zs with _ | ⟨w, ws⟩
        · simp [oins] at hy
          subst hy
          rcases htot x z with h' | h'
          · exact absurd h' hxz
          · exact h'
        · show leP le z y
          simp only [oins] at hy
          by_cases hxw : le x w
          · rw [if_pos hxw] at hy
            simp only [List.head?_cons, Option.mem_def, Option.some_inj] at hy
            subst hy
            rcases htot x z with h' | h'
            · exact absurd h' hxz
            · exact h'
          · rw [if_neg hxw] at hy
            simp only [List.head?_cons, Option.mem_def, Option.some_inj] at hy
            subst hy
            exact (List.chain'_cons.mp h).1

theorem insert_head_asc {le : α → α → Bool} (htr : TransB le)
    (htot : TotB le) {x y : α} {rest : List α} (hxy : le x y = false)
    (h : Asc le (y :: rest)) : Asc le (insert_head le x (y :: rest)) := by
  show Asc le (y :: oins le x rest)
  have hrest : Asc le rest := h.tail
  refine List.chain'_cons'.mpr ⟨?_, oins_asc htr htot x hrest⟩
  intro q hq
  rcases rest with _ | ⟨w, ws⟩
  · simp [oins] at hq
    subst hq
    rcases htot x y with h' | h'
    · exact absurd h' (by simp [hxy])
    · exact h'
  · simp only [oins] at hq
    by_cases hxw : le x w
    · rw [if_pos hxw] at hq
      simp only [List.head?_cons, Option.mem_def, Option.some_inj] at hq
      subst hq
      rcases htot x y with h' | h'
      · exact absurd h' (by simp [hxy])
      · exact h'
    · rw [if_neg hxw] at hq
      simp only [List.head?_cons, Option.mem_def, Option.some_inj] at hq
      subst hq
      exact (List.chain'_cons.mp h).1

/-!
Stability: every operation of the algorithm preserves, for each
comparator-equivalence class, the subsequence of elements of that class.
-/

theorem classEq_true {le : α → α → Bool} {c x : α}
    (h : classEq le c x = true) : le c x = true ∧ le x c = true := by
  simpa [classEq] using h

theorem oins_filter_no {le : α → α → Bool} {c x : α}
    (hcx : classEq le c x = false) :
    ∀ l : List α, (oins le x l).filter (classEq le c) =
      l.filter (classEq le c)
  | [] => by simp [oins, List.filter_cons, hcx]
  | z :: zs => by
      show (if le x z then x :: z :: zs else z :: oins le x zs).filter _ = _
      by_cases hxz : le x z
      · rw [if_pos hxz]
        simp [List.filter_cons, hcx]
      · rw [if_neg hxz]
        simp only [List.filter_cons, oins_filter_no hcx zs]

theorem oins_filter_yes {le : α → α → Bool} (htr : TransB le) {c x : α}
    (hcx : classEq le c x = true) :
    ∀ l : List α, (oins le x l).filter (classEq le c) =
      x :: l.filter (classEq le c)
  | [] => by simp [oins, List.filter_cons, hcx]
  | z :: zs => by
      show (if le x z then x :: z :: zs else z :: oins le x zs).filter _ = _
      by_cases hxz : le x z
      · rw [if_pos hxz]
        simp [List.filter_cons, hcx]
      · rw [if_neg hxz]
        have hcz : classEq le c z = false := by
          rcases classEq_true hcx with ⟨h1, h2⟩
          by_contra hzc
          have hzc : classEq le c z = true := by
            simpa using hzc
          rcases classEq_true hzc with ⟨h3, h4⟩
          have : le x z = true := htr x c z h2 h3
          rw [this] at hxz
          exact hxz rfl
        simp only [List.filter_cons, hcz, oins_filter_yes htr hcx zs]
        simp

theorem insert_head_filter {le : α → α → Bool} (htr : TransB le)
    {x y : α} {rest : List α} (hxy : le x y = false) (c : α) :
    (insert_head le x (y :: rest)).filter (classEq le c) =
      (x :: y :: rest).filter (classEq le c) := by
  show (y :: oins le x rest).filter _ = _
  by_cases hcx : classEq le c x = true
  · have hcy : classEq le c y = false := by
      rcases classEq_true hcx with ⟨h1, h2⟩
      by_contra hyc
      have hyc : classEq le c y = true := by simpa using hyc
      rcases classEq_true hyc with ⟨h3, h4⟩
      have : le x y = true := htr x c y h2 h3
      rw [hxy] at this
      cases this
    simp [List.filter_cons, hcy, hcx, oins_filter_yes htr hcx rest]
  · have hcx' : classEq le c x = false := by simpa using hcx
    simp [List.filter_cons, hcx', oins_filter_no hcx' rest]

theorem mergePair_filter {le : α → α → Bool} (htr : TransB le)
    (htot : TotB le) :
    ∀ (as bs : List α), Asc le as → Asc le bs → ∀ c : α,
      (mergePair le as bs).filter (classEq le c) =
        ((as ++ bs).filter (classEq le c))
  | [], bs => by
      intro _ _ c
      simp [mergePair]
  | a :: as, [] => by
      intro _ _ c
      rw [mergePair_nil_right]
      simp
  | a :: as, b :: bs => by
      intro ha hb c
      rw [mergePair_cons_cons]
      by_cases hab : le a b
      · rw [if_pos hab]
        have ih := mergePair_filter htr htot as (b :: bs) ha.tail hb c
        simp only [List.cons_append, List.filter_cons, ih,
          List.filter_append]
      · rw [if_neg hab]
        have ih := mergePair_filter htr htot (a :: as) bs ha hb.tail c
        by_cases hcb : classEq le c b = true
        · have hAnil : (a :: as).filter (classEq le c) = [] := by
            rw [List.filter_eq_nil_iff]
            intro q hq hqc
            rcases classEq_true hqc with ⟨h1, h2⟩
            rcases classEq_true hcb with ⟨h3, h4⟩
            have haq : le a q = true := by
              rcases List.mem_cons.mp hq with h | h
              · subst h
                exact totB_refl htot q
              · exact asc_head_le htr ha q h
            have hcontra : le a b = true := htr a q b haq (htr q c b h2 h3)
            rw [hcontra] at hab
            exact hab rfl
          simp only [List.filter_cons, hcb, if_true, ih,
            List.filter_append, hAnil]
          simp [List.filter_cons, hcb]
        · have hcb' : classEq le c b = false := by simpa using hcb
          simp only [List.filter_cons, hcb', ih, List.filter_append]
          simp [List.filter_cons, hcb']

theorem do_merge_filter {le : α → α → Bool} (htr : TransB le)
    (htot : TotB le) {A B : List α} (hA : Asc le A) (hB : Asc le B)
    (c : α) :
    (do_merge le A B).filter (classEq le c) =
      (A ++ B).filter (classEq le c) := by
  match A, B with
  | a :: as, b :: bs =>
      show (if le a (bs.getLastD b) = false then (b :: bs) ++ (a :: as)
        else mergePair le (a :: as) (b :: bs)).filter _ = _
      by_cases h : le a (bs.getLastD b) = false
      · rw [if_pos h]
        rw [List.filter_append, List.filter_append]
        by_cases hA0 : (a :: as).filter (classEq le c) = []
        · rw [hA0]
          simp
        · have hq : ∃ q ∈ a :: as, classEq le c q = true := by
            by_contra hno
            push_neg at hno
            apply hA0
            rw [List.filter_eq_nil_iff]
            intro q hqm hqc
            exact (hno q hqm) hqc
          rcases hq with ⟨q, hqm, hqc⟩
          have hB0 : (b :: bs).filter (classEq le c) = [] := by
            rw [List.filter_eq_nil_iff]
            intro p hpm hpc
            rcases classEq_true hqc with ⟨h1, h2⟩
            rcases classEq_true hpc with ⟨h3, h4⟩
            have haq : le a q = true := by
              rcases List.mem_cons.mp hqm with hh | hh
              · subst hh
                exact totB_refl htot q
              · exact asc_head_le htr hA q hh
            have hpl : le p (bs.getLastD b) = true :=
              asc_le_last htr htot bs b hB p hpm
            have : le a (bs.getLastD b) = true :=
              htr a q _ haq (htr q c _ h2 (htr c p _ h3 hpl))
            rw [this] at h
            cases h
          rw [hB0]
          simp
      · rw [if_neg h]
        exact mergePair_filter htr htot _ _ hA hB c
  | [], B =>
      show (mergePair le [] B).filter _ = _
      simp [mergePair]
  | a :: as, [] =>
      show (mergePair le (a :: as) []).filter _ = _
      rw [mergePair_nil_right]
      simp

theorem collapseStep_atStart_nil {le : α → α → Bool} :
    ∀ (rest : List (List α)) (run T : List α),
      (collapseStep le true run T rest).2 = []
  | [], run, T => by
      show (if true = false ∧ run.length ≤ T.length / 2 then (run, [T])
        else (do_merge le run T, [])).2 = []
      rw [if_neg (by simp)]
  | T2 :: rest, run, T => by
      show (if T2.length < run.length then
          collapseStep le true run (do_merge le T T2) rest
        else if true = false ∧ run.length ≤ T.length / 2 then
          (run, T :: T2 :: rest)
        else collapseStep le true (do_merge le run T) T2 rest).2 = []
      by_cases h1 : T2.length < run.length
      · rw [if_pos h1]
        exact collapseStep_atStart_nil rest run (do_merge le T T2)
      · rw [if_neg h1, if_neg (by simp)]
        exact collapseStep_atStart_nil rest (do_merge le run T) T2

theorem collapse_atStart_nil {le : α → α → Bool} (run : List α)
    (stack : List (List α)) : (collapse le true run stack).2 = [] := by
  cases stack with
  | nil => rfl
  | cons T rest => exact collapseStep_atStart_nil rest run T

theorem collapseStep_main {le : α → α → Bool} (htr : TransB le)
    (htot : TotB le) (s : Bool) :
    ∀ (rest : List (List α)) (run T : List α),
      Asc le run → Asc le T → (∀ R ∈ rest, Asc le R) →
      Asc le (collapseStep le s run T rest).1 ∧
      (∀ R ∈ (collapseStep le s run T rest).2, Asc le R) ∧
      ∀ c, ((collapseStep le s run T rest).1 ++
          ((collapseStep le s run T rest).2).flatten).filter (classEq le c) =
        (run ++ (T ++ rest.flatten)).filter (classEq le c)
  | [], run, T => by
      intro hrun hT _
      by_cases h : s = false ∧ run.length ≤ T.length / 2
      · simp only [collapseStep, if_pos h]
        refine ⟨hrun, ?_, ?_⟩
        · intro R hR
          rcases List.mem_cons.mp hR with rfl | hR
          · exact hT
          · cases hR
        · intro c
          simp [List.filter_append]
      · simp only [collapseStep, if_neg h]
        refine ⟨do_merge_asc htr htot hrun hT, by simp, ?_⟩
        intro c
        simp only [List.flatten_nil, List.append_nil, List.flatten_cons]
        rw [do_merge_filter htr htot hrun hT c]
  | T2 :: rest, run, T => by
      intro hrun hT hrest
      have hT2 : Asc le T2 := hrest T2 (by simp)
      have hrest2 : ∀ R ∈ rest, Asc le R := fun R hR =>
        hrest R (by simp [hR])
      by_cases h1 : T2.length < run.length
      · simp only [collapseStep, if_pos h1]
        have ih := collapseStep_main htr htot s rest run (do_merge le T T2)
          hrun (do_merge_asc htr htot hT hT2) hrest2
        refine ⟨ih.1, ih.2.1, ?_⟩
        intro c
        rw [ih.2.2 c]
        simp only [List.filter_append, do_merge_filter htr htot hT hT2 c,
          List.flatten_cons]
        simp [List.filter_append]
      · simp only [collapseStep, if_neg h1]
        by_cases h2 : s = false ∧ run.length ≤ T.length / 2
        · simp only [if_pos h2]
          refine ⟨hrun, ?_, ?_⟩
          · intro R hR
            rcases List.mem_cons.mp hR with rfl | hR
            · exact hT
            · exact hrest R hR
          · intro c
            simp [List.filter_append]
        · simp only [if_neg h2]
          have ih := collapseStep_main htr htot s rest (do_merge le run T)
            T2 (do_merge_asc htr htot hrun hT) hT2 hrest2
          refine ⟨ih.1, ih.2.1, ?_⟩
          intro c
          rw [ih.2.2 c]
          simp only [List.filter_append, do_merge_filter htr htot hrun hT c,
            List.flatten_cons]
          simp [List.filter_append]

theorem collapse_main {le : α → α → Bool} (htr : TransB le)
    (htot : TotB le) (s : Bool) (run : List α) (stack : List (List α))
    (hrun : Asc le run) (hstack : ∀ R ∈ stack, Asc le R) :
    Asc le (collapse le s run stack).1 ∧
    (∀ R ∈ (collapse le s run stack).2, Asc le R) ∧
    ∀ c, ((collapse le s run stack).1 ++
        ((collapse le s run stack).2).flatten).filter (classEq le c) =
      (run ++ stack.flatten).filter (classEq le c) := by
  cases stack with
  | nil =>
      refine ⟨hrun, by simp [collapse], ?_⟩
      intro c
      simp [collapse]
  | cons T rest =>
      have hT : Asc le T := hstack T (by simp)
      have hrest : ∀ R ∈ rest, Asc le R := fun R hR =>
        hstack R (by simp [hR])
      have h := collapseStep_main htr htot s rest run T hrun hT hrest
      refine ⟨h.1, h.2.1, fun c => ?_⟩
      show ((collapseStep le s run T rest).1 ++
        ((collapseStep le s run T rest).2).flatten).filter (classEq le c) = _
      rw [h.2.2 c]
      simp

theorem sortStep_main {le : α → α → Bool} (htr : TransB le)
    (htot : TotB le) :
    ∀ (r : List α) (run : List α) (stack : List (List α)),
      Asc le run → (∀ R ∈ stack, Asc le R) →
      ∃ F, sortStep le run stack r = [F] ∧ Asc le F ∧
        ∀ c, F.filter (classEq le c) =
          (r.reverse ++ (run ++ stack.flatten)).filter (classEq le c)
  | [], run, stack => by
      intro hrun hstack
      have hnil := @collapse_atStart_nil _ le run stack
      have hm := collapse_main htr htot true run stack hrun hstack
      refine ⟨(collapse le true run stack).1, ?_, hm.1, ?_⟩
      · show (collapse le true run stack).1 ::
          (collapse le true run stack).2 = _
        rw [hnil]
      · intro c
        have := hm.2.2 c
        rw [hnil] at this
        simpa using this
  | x :: r, run, stack => by
      intro hrun hstack
      show ∃ F, (if le x (run.headD x) then sortStep le (x :: run) stack r
        else if run.length < 4 then
          sortStep le (insert_head le x run) stack r
        else
          sortStep le [x] ((collapse le false run stack).1 ::
            (collapse le false run stack).2) r) = [F] ∧ _
      by_cases h1 : le x (run.headD x)
      · rw [if_pos h1]
        have hxr : Asc le (x :: run) := by
          rcases run with _ | ⟨y, rest⟩
          · simp [Asc]
          · exact List.chain'_cons.mpr ⟨h1, hrun⟩
        rcases sortStep_main htr htot r (x :: run) stack hxr hstack with
          ⟨F, hF, hFasc, hFfil⟩
        refine ⟨F, hF, hFasc, ?_⟩
        intro c
        rw [hFfil c]
        simp [List.filter_append, List.append_assoc]
      · rw [if_neg h1]
        by_cases h2 : run.length < 4
        · rw [if_pos h2]
          rcases run with _ | ⟨y, rest⟩
          · exfalso
            apply h1
            simpa using totB_refl htot x
          · have hins : Asc le (insert_head le x (y :: rest)) :=
              insert_head_asc htr htot (by simpa using h1) hrun
            rcases sortStep_main htr htot r (insert_head le x (y :: rest))
              stack hins hstack with ⟨F, hF, hFasc, hFfil⟩
            refine ⟨F, hF, hFasc, ?_⟩
            intro c
            rw [hFfil c]
            have hif := @insert_head_filter _ le htr x y rest
              (by simpa using h1) c
            have hsplit : (x :: y :: rest).filter (classEq le c) =
                [x].filter (classEq le c) ++
                  (y :: rest).filter (classEq le c) := by
              rw [← List.filter_append]
              rfl
            simp only [List.reverse_cons, List.filter_append, hif, hsplit,
              List.append_assoc]
        · rw [if_neg h2]
          have hm := collapse_main htr htot false run stack hrun hstack
          have hstack2 : ∀ R ∈ (collapse le false run stack).1 ::
              (collapse le false run stack).2, Asc le R := by
            intro R hR
            rcases List.mem_cons.mp hR with rfl | hR
            · exact hm.1
            · exact hm.2.1 R hR
          rcases sortStep_main htr htot r [x]
            ((collapse le false run stack).1 ::
              (collapse le false run stack).2) (by simp [Asc]) hstack2 with
            ⟨F, hF, hFasc, hFfil⟩
          refine ⟨F, hF, hFasc, ?_⟩
          intro c
          rw [hFfil c]
          have hcol := hm.2.2 c
          simp only [List.flatten_cons, List.filter_append] at hcol ⊢
          rw [hcol]
          simp [List.filter_append, List.append_assoc, List.filter_cons]

theorem mergesort_asc {le : α → α → Bool} (htr : TransB le)
    (htot : TotB le) (l : List α) : Asc le (mergesort le l) := by
  unfold mergesort
  by_cases h : l.length < 2
  · rw [if_pos h]
    rcases l with _ | ⟨a, _ | ⟨b, t⟩⟩
    · simp [Asc]
    · simp [Asc]
    · exact absurd h (by simp)
  · rw [if_neg h]
    cases hl : l.reverse with
    | nil =>
        rw [List.reverse_eq_nil_iff] at hl
        subst hl
        simp at h
    | cons x r =>
        show Asc le (sortStep le [x] [] r).flatten
        rcases sortStep_main htr htot r [x] [] (by simp [Asc])
          (by simp) with ⟨F, hF, hFasc, _⟩
        rw [hF]
        simpa using hFasc

theorem mergesort_filter {le : α → α → Bool} (htr : TransB le)
    (htot : TotB le) (l : List α) (c : α) :
    (mergesort le l).filter (classEq le c) = l.filter (classEq le c) := by
  unfold mergesort
  by_cases h : l.length < 2
  · rw [if_pos h]
  · rw [if_neg h]
    cases hl : l.reverse with
    | nil => rfl
    | cons x r =>
        show (sortStep le [x] [] r).flatten.filter (classEq le c) =
          l.filter (classEq le c)
        rcases sortStep_main htr htot r [x] [] (by simp [Asc])
          (by simp) with ⟨F, hF, _, hFfil⟩
        rw [hF]
        have hrl : r.reverse ++ [x] = l := by
          have h1 : (x :: r).reverse = l := by
            rw [← hl, List.reverse_reverse]
          simpa [List.reverse_cons] using h1
        have := hFfil c
        simp only [List.flatten_nil, List.append_nil] at this
        rw [← hrl]
        simpa using this

/-!
Uniqueness of stable sorting: a sorted list is determined by its
per-class subsequences.  Together with the invariants above this
identifies the adaptive sort with any other stable sort.
-/

theorem stable_sort_unique {le : α → α → Bool} (htr : TransB le)
    (htot : TotB le) :
    ∀ (l1 l2 : List α), Asc le l1 → Asc le l2 →
      (∀ c, l1.filter (classEq le c) = l2.filter (classEq le c)) →
      l1 = l2
  | [], l2 => by
      intro _ _ hf
      cases l2 with
      | nil => rfl
      | cons b t2 =>
          exfalso
          have hb := hf b
          have hcb : classEq le b b = true := by
            simp [classEq, totB_refl htot b]
          rw [List.filter_nil] at hb
          rw [List.filter_cons] at hb
          simp [totB_refl htot b] at hb
  | a :: t1, l2 => by
      intro h1 h2 hf
      cases l2 with
      | nil =>
          exfalso
          have ha := hf a
          have hca : classEq le a a = true := by
            simp [classEq, totB_refl htot a]
          simp [List.filter_cons, totB_refl htot a] at ha
      | cons b t2 =>
          have hca : classEq le a a = true := by
            simp [classEq, totB_refl htot a]
          have hcb : classEq le b b = true := by
            simp [classEq, totB_refl htot b]
          have hfa := hf a
          have hfb := hf b
          obtain ⟨q, hq, hqc⟩ : ∃ q ∈ b :: t2, classEq le a q = true := by
            by_contra hno
            push_neg at hno
            have : (b :: t2).filter (classEq le a) = [] :=
              List.filter_eq_nil_iff.mpr (fun q hq => by
                simpa using hno q hq)
            rw [this] at hfa
            simp [List.filter_cons, totB_refl htot a] at hfa
          obtain ⟨p, hp, hpc⟩ : ∃ p ∈ a :: t1, classEq le b p = true := by
            by_contra hno
            push_neg at hno
            have : (a :: t1).filter (classEq le b) = [] :=
              List.filter_eq_nil_iff.mpr (fun p hp => by
                simpa using hno p hp)
            rw [this] at hfb
            simp [List.filter_cons, totB_refl htot b] at hfb
          have hba : le b a = true := by
            rcases classEq_true hqc with ⟨h3, h4⟩
            have hbq : le b q = true := by
              rcases List.mem_cons.mp hq with rfl | hh
              · exact totB_refl htot q
              · exact asc_head_le htr h2 q hh
            exact htr b q a hbq h4
          have hab : le a b = true := by
            rcases classEq_true hpc with ⟨h3, h4⟩
            have hap : le a p = true := by
              rcases List.mem_cons.mp hp with rfl | hh
              · exact totB_refl htot p
              · exact asc_head_le htr h1 p hh
            exact htr a p b hap h4
          have hcab : classEq le a b = true := by
            simp [classEq, hab, hba]
          have hfa2 : a :: t1.filter (classEq le a) =
              b :: t2.filter (classEq le a) := by
            have := hfa
            rw [List.filter_cons, List.filter_cons] at this
            simpa [totB_refl htot a, hab, hba] using this
          have hved : a = b := (List.cons.injEq _ _ _ _ ▸ hfa2).1
          subst hved
          have htails : t1 = t2 := by
            refine stable_sort_unique htr htot t1 t2 h1.tail h2.tail ?_
            intro c
            have hc := hf c
            rw [List.filter_cons, List.filter_cons] at hc
            by_cases hclass : classEq le c a = true
            · rw [if_pos hclass, if_pos hclass] at hc
              exact (List.cons.injEq _ _ _ _ ▸ hc).2
            · rw [if_neg hclass, if_neg hclass] at hc
              exact hc
          rw [htails]

/-!
The simple top-down recursive variant (src/unnamed/part_001:250-287) is
also a stable sort.
-/

theorem mergesortTD_main {le : α → α → Bool} (htr : TransB le)
    (htot : TotB le) :
    ∀ (n : Nat) (l : List α), l.length ≤ n →
      Asc le (mergesortTD le l) ∧
        ∀ c, (mergesortTD le l).filter (classEq le c) =
          l.filter (classEq le c) := by
  intro n
  induction n with
  | zero =>
      intro l hl
      have : l = [] := List.length_eq_zero.mp (Nat.le_zero.mp hl)
      subst this
      rw [mergesortTD]
      simp [Asc]
  | succ n ih =>
      intro l hl
      by_cases h2 : l.length < 2
      · rw [mergesortTD, dif_pos h2]
        rcases l with _ | ⟨a, _ | ⟨b, t⟩⟩
        · simp [Asc]
        · simp [Asc]
        · exact absurd h2 (by simp)
      · rw [mergesortTD, dif_neg h2]
        have hlen : 2 ≤ l.length := Nat.le_of_not_lt h2
        have htake : (l.take (l.length / 2)).length ≤ n := by
          simp only [List.length_take]
          omega
        have hdrop : (l.drop (l.length / 2)).length ≤ n := by
          simp only [List.length_drop]
          omega
        have iht := ih (l.take (l.length / 2)) htake
        have ihd := ih (l.drop (l.length / 2)) hdrop
        constructor
        · exact mergePair_asc htr htot iht.1 ihd.1
        · intro c
          rw [mergePair_filter htr htot _ _ iht.1 ihd.1 c]
          rw [List.filter_append, iht.2 c, ihd.2 c, ← List.filter_append,
            List.take_append_drop]

/-!
Decomposition of a list around two adjacent positions, used to read
adjacent-element claims off the per-class invariants.
-/

theorem adjacent_decomp (S : List α) (i : Nat) (hi : i + 1 < S.length) :
    S = S.take i ++ S.get ⟨i, Nat.lt_of_succ_lt hi⟩ ::
      S.get ⟨i + 1, hi⟩ :: S.drop (i + 2) := by
  have h1 : S.drop i = S.get ⟨i, Nat.lt_of_succ_lt hi⟩ :: S.drop (i + 1) := by
    rw [List.drop_eq_getElem_cons (Nat.lt_of_succ_lt hi)]
    rfl
  have h2 : S.drop (i + 1) = S.get ⟨i + 1, hi⟩ :: S.drop (i + 2) := by
    rw [List.drop_eq_getElem_cons hi]
    rfl
  calc S = S.take i ++ S.drop i := (List.take_append_drop i S).symm
    _ = _ := by rw [h1, h2]

/-- Claim C1: for every finite sequence and every valid
strict-weak-ordering comparator, after `mergesort` returns the sequence
is sorted ascending: for every index `i`, `S[i+1]` is not less than
`S[i]` under the comparator. -/
theorem C1_mergesort_sorted {α : Type} (cmp : α → α → Int)
    (hanti : CmpAntisym cmp) (htrans : CmpTrans cmp) (l : List α)
    (i : Nat) (hi : i + 1 < (mergesort (cle cmp) l).length) :
    ¬ (cmp ((mergesort (cle cmp) l).get ⟨i + 1, hi⟩)
        ((mergesort (cle cmp) l).get ⟨i, Nat.lt_of_succ_lt hi⟩) < 0) := by
  have htot := cle_total hanti
  have htr := cle_trans htrans
  have hasc := mergesort_asc htr htot l
  have hchain := List.chain'_iff_get.mp hasc i (by omega)
  have hle : cmp ((mergesort (cle cmp) l).get ⟨i, Nat.lt_of_succ_lt hi⟩)
      ((mergesort (cle cmp) l).get ⟨i + 1, hi⟩) < 1 := by
    simpa [leP, cle] using hchain
  intro hc
  rw [hanti] at hc
  omega

theorem cmpInt_antisym : CmpAntisym cmpInt := by
  intro a b
  constructor <;> (intro h; simp [cmpInt] at *; omega)

theorem cmpInt_trans : CmpTrans cmpInt := by
  intro a b c h1 h2
  simp [cmpInt] at *
  omega

theorem C1_mergesort_sorted_witness :
    ¬ (cmpInt ((mergesort (cle cmpInt) [3, 1, 2]).get ⟨1, by decide⟩)
        ((mergesort (cle cmpInt) [3, 1, 2]).get ⟨0, by decide⟩) < 0) :=
  C1_mergesort_sorted cmpInt cmpInt_antisym cmpInt_trans [3, 1, 2] 0
    (by decide)

/-- Claim C3: `mergesort` permutes the sequence: the multiset of
elements after the call equals the multiset before the call — no
element is duplicated, dropped, or corrupted.  (Proved for every
Boolean comparator, in particular every strict-weak-ordering one.) -/
theorem C3_mergesort_multiset_eq {α : Type} (le : α → α → Bool)
    (l : List α) : (↑(mergesort le l) : Multiset α) = (↑l : Multiset α) :=
  Multiset.coe_eq_coe.mpr (mergesort_perm l)

/-- Claim C2: `mergesort` is stable.  For every input carrying strictly
increasing tags (recording original positions) and every valid
strict-weak-ordering comparator, whenever two adjacent output elements
compare equal, the left one carries the smaller tag. -/
theorem C2_mergesort_stable {α : Type} (cmp : α → α → Int) (tag : α → Nat)
    (hanti : CmpAntisym cmp) (htrans : CmpTrans cmp) (l : List α)
    (htags : List.Pairwise (fun p q => tag p < tag q) l)
    (i : Nat) (hi : i + 1 < (mergesort (cle cmp) l).length)
    (heq : cmp ((mergesort (cle cmp) l).get ⟨i, Nat.lt_of_succ_lt hi⟩)
        ((mergesort (cle cmp) l).get ⟨i + 1, hi⟩) = 0) :
    tag ((mergesort (cle cmp) l).get ⟨i, Nat.lt_of_succ_lt hi⟩) <
      tag ((mergesort (cle cmp) l).get ⟨i + 1, hi⟩) := by
  have htot := cle_total hanti
  have htr := cle_trans htrans
  have heq2 : cmp ((mergesort (cle cmp) l).get ⟨i + 1, hi⟩)
      ((mergesort (cle cmp) l).get ⟨i, Nat.lt_of_succ_lt hi⟩) = 0 := by
    have h1 := hanti ((mergesort (cle cmp) l).get ⟨i, Nat.lt_of_succ_lt hi⟩)
      ((mergesort (cle cmp) l).get ⟨i + 1, hi⟩)
    have h2 := hanti ((mergesort (cle cmp) l).get ⟨i + 1, hi⟩)
      ((mergesort (cle cmp) l).get ⟨i, Nat.lt_of_succ_lt hi⟩)
    omega
  set S := mergesort (cle cmp) l with hS
  set a := S.get ⟨i, Nat.lt_of_succ_lt hi⟩ with ha
  set b := S.get ⟨i + 1, hi⟩ with hb
  have hcaa : classEq (cle cmp) a a = true := by
    simp [classEq, totB_refl htot a]
  have hcab : classEq (cle cmp) a b = true := by
    simp only [classEq, cle, Bool.and_eq_true, decide_eq_true_eq]
    omega
  have hdec := adjacent_decomp S i hi
  have hfilS : S.filter (classEq (cle cmp) a) =
      (S.take i).filter (classEq (cle cmp) a) ++
        a :: b :: (S.drop (i + 2)).filter (classEq (cle cmp) a) := by
    conv_lhs => rw [hdec]
    rw [← ha, ← hb]
    rw [List.filter_append]
    congr 1
    rw [List.filter_cons, if_pos hcaa, List.filter_cons, if_pos hcab]
  have hPl : List.Pairwise (fun p q => tag p < tag q)
      (l.filter (classEq (cle cmp) a)) := htags.filter _
  have hSl : (S.take i).filter (classEq (cle cmp) a) ++
      a :: b :: (S.drop (i + 2)).filter (classEq (cle cmp) a) =
      l.filter (classEq (cle cmp) a) := by
    rw [← hfilS]
    exact mergesort_filter htr htot l a
  have hP : List.Pairwise (fun p q => tag p < tag q)
      ((S.take i).filter (classEq (cle cmp) a) ++
        a :: b :: (S.drop (i + 2)).filter (classEq (cle cmp) a)) := by
    rw [hSl]
    exact hPl
  have hP2 := (List.pairwise_append.mp hP).2.1
  exact (List.pairwise_cons.mp hP2).1 b (by simp)

theorem cmpKey_antisym : CmpAntisym cmpKey := by
  intro a b
  constructor <;> (intro h; simp [cmpKey, cmpInt] at *; omega)

theorem cmpKey_trans : CmpTrans cmpKey := by
  intro a b c h1 h2
  simp [cmpKey, cmpInt] at *
  omega

theorem C2_mergesort_stable_witness :
    Prod.snd ((mergesort (cle cmpKey)
        [((1 : Int), 0), ((1 : Int), 1), ((0 : Int), 2)]).get
          ⟨1, by decide⟩) <
      Prod.snd ((mergesort (cle cmpKey)
        [((1 : Int), 0), ((1 : Int), 1), ((0 : Int), 2)]).get
          ⟨2, by decide⟩) :=
  C2_mergesort_stable cmpKey Prod.snd cmpKey_antisym cmpKey_trans
    [((1 : Int), 0), ((1 : Int), 1), ((0 : Int), 2)] (by decide) 1
    (by decide) (by decide)

/-- Claim C10: for every input sequence and every valid
strict-weak-ordering comparator, the adaptive mergesort of
src/mergesort.c and the simple top-down recursive two-way merge sort
variant produce element-for-element identical output sequences. -/
theorem C10_adaptive_eq_top_down {α : Type} (cmp : α → α → Int)
    (hanti : CmpAntisym cmp) (htrans : CmpTrans cmp) (l : List α) :
    mergesort (cle cmp) l = mergesortTD (cle cmp) l := by
  have htot := cle_total hanti
  have htr := cle_trans htrans
  have hTD := mergesortTD_main htr htot l.length l (Nat.le_refl _)
  refine stable_sort_unique htr htot _ _ (mergesort_asc htr htot l)
    hTD.1 ?_
  intro c
  rw [mergesort_filter htr htot l c, hTD.2 c]

theorem C10_adaptive_eq_top_down_witness :
    mergesort (cle cmpInt) [2, 1, 3] = mergesortTD (cle cmpInt) [2, 1, 3] :=
  C10_adaptive_eq_top_down cmpInt cmpInt_antisym cmpInt_trans [2, 1, 3]

/-!
Run-stack invariant: every push point of the outer loop leaves a stack
in which each run is at most half as long as its right neighbour, so
the stack depth stays logarithmic in the input length.
-/

theorem sumLens_nil : sumLens ([] : List (List α)) = 0 := rfl

theorem sumLens_cons (T : List α) (s : List (List α)) :
    sumLens (T :: s) = T.length + sumLens s := by
  simp [sumLens]

theorem insert_head_length {le : α → α → Bool} (x : α) (run : List α) :
    (insert_head le x run).length = run.length + 1 := by
  simpa using (@insert_head_perm _ le x run).length_eq

theorem insert_head_ne {le : α → α → Bool} (x : α) (run : List α) :
    insert_head le x run ≠ [] := by
  intro hc
  have := @insert_head_length _ le x run
  rw [hc] at this
  simp at this

theorem ne_nil_length_pos {r : List α} (h : r ≠ []) : 1 ≤ r.length := by
  rcases r with _ | ⟨a, t⟩
  · exact absurd rfl h
  · simp

theorem collapseStep_inv {le : α → α → Bool} (s : Bool) :
    ∀ (rest : List (List α)) (run T : List α),
      run ≠ [] → T ≠ [] → AllNE rest →
      (StackInv (T :: rest) ∨
        (StackInv rest ∧ T.length / 2 < run.length ∧
          ∀ T2 ∈ rest.head?, T.length < T2.length)) →
      StackInv ((collapseStep le s run T rest).1 ::
        (collapseStep le s run T rest).2) ∧
      AllNE ((collapseStep le s run T rest).1 ::
        (collapseStep le s run T rest).2) ∧
      (collapseStep le s run T rest).1.length +
        sumLens (collapseStep le s run T rest).2 =
        run.length + T.length + sumLens rest
  | [], run, T => by
      intro hrun hT _ hdisj
      by_cases h : s = false ∧ run.length ≤ T.length / 2
      · simp only [collapseStep, if_pos h]
        refine ⟨List.chain'_cons.mpr ⟨h.2, List.chain'_singleton T⟩,
          ?_, ?_⟩
        · intro R hR
          rcases List.mem_cons.mp hR with rfl | hR
          · exact hrun
          · rcases List.mem_cons.mp hR with rfl | hR
            · exact hT
            · cases hR
        · simp [sumLens]
      · simp only [collapseStep, if_neg h]
        refine ⟨List.chain'_singleton _, ?_, ?_⟩
        · intro R hR
          rcases List.mem_cons.mp hR with rfl | hR
          · exact do_merge_ne _ hrun
          · cases hR
        · simp [sumLens, do_merge_length]
  | T2 :: rest, run, T => by
      intro hrun hT hne hdisj
      have hT2ne : T2 ≠ [] := hne T2 (by simp)
      have hrestne : AllNE rest := fun R hR => hne R (by simp [hR])
      by_cases h1 : T2.length < run.length
      · simp only [collapseStep, if_pos h1]
        have hrec := @collapseStep_inv le s rest run
          (do_merge le T T2) hrun (do_merge_ne _ hT) hrestne ?_
        · refine ⟨hrec.1, hrec.2.1, ?_⟩
          rw [hrec.2.2, do_merge_length, sumLens_cons]
          omega
        · right
          rw [do_merge_length]
          rcases hdisj with hd | hd
          · have hTT2 : T.length ≤ T2.length / 2 :=
              (List.chain'_cons.mp hd).1
            have hchain2 : StackInv (T2 :: rest) :=
              (List.chain'_cons.mp hd).2
            refine ⟨hchain2.tail, by omega, ?_⟩
            intro T3 hT3
            rcases rest with _ | ⟨T3', rest2⟩
            · cases hT3
            · simp only [List.head?_cons, Option.mem_def,
                Option.some_inj] at hT3
              have hT2T3 : T2.length ≤ T3'.length / 2 :=
                (List.chain'_cons.mp hchain2).1
              have h3 : 1 ≤ T3'.length :=
                ne_nil_length_pos (hrestne T3' (by simp))
              rw [← hT3]
              omega
          · rcases hd with ⟨hchain, hhalf, hlt⟩
            have hTT2 : T.length < T2.length := hlt T2 (by simp)
            refine ⟨hchain.tail, by omega, ?_⟩
            intro T3 hT3
            rcases rest with _ | ⟨T3', rest2⟩
            · cases hT3
            · simp only [List.head?_cons, Option.mem_def,
                Option.some_inj] at hT3
              have hT2T3 : T2.length ≤ T3'.length / 2 :=
                (List.chain'_cons.mp hchain).1
              have h3 : 1 ≤ T3'.length :=
                ne_nil_length_pos (hrestne T3' (by simp))
              rw [← hT3]
              omega
      · simp only [collapseStep, if_neg h1]
        by_cases h2 : s = false ∧ run.length ≤ T.length / 2
        · simp only [if_pos h2]
          rcases hdisj with hd | hd
          · refine ⟨List.chain'_cons.mpr ⟨h2.2, hd⟩, ?_, ?_⟩
            · intro R hR
              rcases List.mem_cons.mp hR with rfl | hR
              · exact hrun
              · rcases List.mem_cons.mp hR with rfl | hR
                · exact hT
                · exact hne R hR
            · simp [sumLens_cons]
              omega
          · exact absurd h2.2 (by omega)
        · simp only [if_neg h2]
          have hchain2 : StackInv (T2 :: rest) := by
            rcases hdisj with hd | hd
            · exact (List.chain'_cons.mp hd).2
            · exact hd.1
          have hrec := @collapseStep_inv le s rest
            (do_merge le run T) T2 (do_merge_ne _ hrun) hT2ne hrestne
            (Or.inl hchain2)
          refine ⟨hrec.1, hrec.2.1, ?_⟩
          rw [hrec.2.2, do_merge_length, sumLens_cons]
          omega

theorem collapse_inv {le : α → α → Bool} (s : Bool) (run : List α)
    (stack : List (List α)) (hrun : run ≠ []) (hne : AllNE stack)
    (hinv : StackInv stack) :
    StackInv ((collapse le s run stack).1 :: (collapse le s run stack).2) ∧
    AllNE ((collapse le s run stack).1 :: (collapse le s run stack).2) ∧
    (collapse le s run stack).1.length +
      sumLens (collapse le s run stack).2 =
      run.length + sumLens stack := by
  cases stack with
  | nil =>
      refine ⟨List.chain'_singleton _, ?_, by simp [collapse, sumLens]⟩
      intro R hR
      rcases List.mem_cons.mp hR with rfl | hR
      · exact hrun
      · cases hR
  | cons T rest =>
      have hT : T ≠ [] := hne T (by simp)
      have hrest : AllNE rest := fun R hR => hne R (by simp [hR])
      have h := @collapseStep_inv _ le s rest run T hrun hT hrest
        (Or.inl hinv)
      refine ⟨h.1, h.2.1, ?_⟩
      show (collapseStep le s run T rest).1.length +
        sumLens (collapseStep le s run T rest).2 = _
      rw [h.2.2, sumLens_cons]
      omega

theorem sortStepT_inv {le : α → α → Bool} :
    ∀ (r : List α) (run : List α) (stack : List (List α)),
      run ≠ [] → AllNE stack → StackInv stack →
      ∀ st ∈ sortStepT le run stack r,
        StackInv st ∧ AllNE st ∧
          sumLens st ≤ run.length + sumLens stack + r.length
  | [], run, stack => by
      intro hrun hne hinv st hst
      have h := @collapse_inv _ le true run stack hrun hne hinv
      simp only [sortStepT, List.mem_singleton] at hst
      subst hst
      refine ⟨h.1, h.2.1, ?_⟩
      rw [sumLens_cons]
      omega
  | x :: r, run, stack => by
      intro hrun hne hinv st hst
      simp only [sortStepT] at hst
      have hxr : (x :: r).length = r.length + 1 := by simp
      by_cases h1 : le x (run.headD x)
      · rw [if_pos h1] at hst
        have h := sortStepT_inv r (x :: run) stack (by simp) hne hinv st hst
        refine ⟨h.1, h.2.1, ?_⟩
        have h3 := h.2.2
        have hxrun : (x :: run).length = run.length + 1 := by simp
        omega
      · rw [if_neg h1] at hst
        by_cases h2 : run.length < 4
        · rw [if_pos h2] at hst
          have h := sortStepT_inv r (insert_head le x run) stack
            (insert_head_ne x run) hne hinv st hst
          refine ⟨h.1, h.2.1, ?_⟩
          have h3 := h.2.2
          have hil := @insert_head_length _ le x run
          omega
        · rw [if_neg h2] at hst
          have hc := @collapse_inv _ le false run stack hrun hne hinv
          have hc3 := hc.2.2
          have hsc : sumLens ((collapse le false run stack).1 ::
              (collapse le false run stack).2) =
              (collapse le false run stack).1.length +
              sumLens (collapse le false run stack).2 := sumLens_cons _ _
          rcases List.mem_cons.mp hst with rfl | hst2
          · exact ⟨hc.1, hc.2.1, by omega⟩
          · have h := sortStepT_inv r [x]
              ((collapse le false run stack).1 ::
                (collapse le false run stack).2) (by simp) hc.2.1 hc.1
              st hst2
            refine ⟨h.1, h.2.1, ?_⟩
            have h3 := h.2.2
            have hone : ([x] : List α).length = 1 := by simp
            omega

theorem stackInv_pow_le :
    ∀ (st : List (List α)) (c : Nat), StackInv st → AllNE st →
      (∀ h ∈ st.head?, c ≤ h.length) → 1 ≤ c →
      c * 2 ^ st.length ≤ sumLens st + c
  | [], c => by
      intro _ _ _ _
      simp [sumLens]
  | a :: rest, c => by
      intro hinv hne hhead hc
      have hca : c ≤ a.length := hhead a (by simp)
      have hrec := stackInv_pow_le rest (2 * c) hinv.tail
        (fun R hR => hne R (by simp [hR])) ?_ (by omega)
      · rw [sumLens_cons]
        have hpow : c * 2 ^ (a :: rest).length =
            2 * c * 2 ^ rest.length := by
          simp only [List.length_cons]
          ring
        rw [hpow]
        omega
      · intro R hR
        rcases rest with _ | ⟨T2, rest2⟩
        · cases hR
        · simp only [List.head?_cons, Option.mem_def,
            Option.some_inj] at hR
          subst hR
          have := (List.chain'_cons.mp hinv).1
          omega

/-- Claim C5: at every point where the outer loop has just pushed a new
run onto the run stack, every pair of adjacent stack entries satisfies
the invariant: the left run's length is at most half the length of the
immediately-right run. -/
theorem C5_run_stack_invariant {α : Type} (le : α → α → Bool)
    (l : List α) (st : List (List α)) (hst : st ∈ mergesortTrace le l) :
    List.Chain' (fun a b => a.length ≤ b.length / 2) st := by
  unfold mergesortTrace at hst
  by_cases h : l.length < 2
  · rw [if_pos h] at hst
    cases hst
  · rw [if_neg h] at hst
    cases hl : l.reverse with
    | nil =>
        rw [hl] at hst
        cases hst
    | cons x r =>
        rw [hl] at hst
        exact (sortStepT_inv r [x] [] (by simp)
          (by intro R hR; cases hR) List.chain'_nil st hst).1

theorem C5_run_stack_invariant_witness :
    List.Chain' (fun (a b : List Int) => a.length ≤ b.length / 2)
      [[0, 0, 1, 5], [0, 0, 0, 1, 2, 2, 3, 3, 3, 4, 4, 5, 5, 5]] :=
  C5_run_stack_invariant (cle cmpInt)
    [4, 5, 0, 5, 0, 1, 0, 1, 2, 3, 4, 5, 0, 3, 2, 5, 0, 3, 4, 5]
    [[0, 0, 1, 5], [0, 0, 0, 1, 2, 2, 3, 3, 3, 4, 4, 5, 5, 5]]
    (by decide)

/-- Claim C8: the run stack never holds more than `⌈log2(N+1)⌉` entries
(at any push point, which is where the depth peaks), so in particular
the fixed 64-entry `div` array is never overrun for any input length
representable in 64 bits. -/
theorem C8_stack_depth_bound {α : Type} (le : α → α → Bool)
    (l : List α) (st : List (List α)) (hst : st ∈ mergesortTrace le l) :
    st.length ≤ Nat.clog 2 (l.length + 1) ∧
      (l.length < 2 ^ 64 → st.length ≤ 64) := by
  have hsum : StackInv st ∧ AllNE st ∧ sumLens st ≤ l.length := by
    unfold mergesortTrace at hst
    by_cases h : l.length < 2
    · rw [if_pos h] at hst
      cases hst
    · rw [if_neg h] at hst
      cases hl : l.reverse with
      | nil =>
          rw [hl] at hst
          cases hst
      | cons x r =>
          rw [hl] at hst
          have h2 := sortStepT_inv r [x] [] (by simp)
            (by intro R hR; cases hR) List.chain'_nil st hst
          refine ⟨h2.1, h2.2.1, ?_⟩
          have hlen : l.length = r.length + 1 := by
            have := congrArg List.length hl
            simpa [List.length_reverse] using this
          have h3 := h2.2.2
          have hone : ([x] : List α).length = 1 := by simp
          have hz : sumLens ([] : List (List α)) = 0 := rfl
          omega
  have hpow : 2 ^ st.length ≤ l.length + 1 := by
    have := stackInv_pow_le st 1 hsum.1 hsum.2.1
      (fun h hh => ne_nil_length_pos (hsum.2.1 h (by
        cases st with
        | nil => cases hh
        | cons a t =>
            simp only [List.head?_cons, Option.mem_def,
              Option.some_inj] at hh
            subst hh
            simp))) (by omega)
    have hs := hsum.2.2
    omega
  constructor
  · by_contra hgt
    push_neg at hgt
    have h1 : l.length + 1 ≤ 2 ^ Nat.clog 2 (l.length + 1) :=
      Nat.le_pow_clog (by norm_num) _
    have h2 : (2 : Nat) ^ Nat.clog 2 (l.length + 1) < 2 ^ st.length :=
      Nat.pow_lt_pow_right (by norm_num) hgt
    omega
  · intro hN
    by_contra hgt
    push_neg at hgt
    have h1 : (2 : Nat) ^ 65 ≤ 2 ^ st.length :=
      Nat.pow_le_pow_right (by norm_num) hgt
    have h2 : (2 : Nat) ^ 64 < 2 ^ 65 := by norm_num
    omega

theorem C8_stack_depth_bound_witness :
    ([[0, 0, 1, 5], [0, 0, 0, 1, 2, 2, 3, 3, 3, 4, 4, 5, 5, 5]] :
        List (List Int)).length ≤ Nat.clog 2 ((20 : Nat) + 1) ∧
      ((20 : Nat) < 2 ^ 64 →
        ([[0, 0, 1, 5], [0, 0, 0, 1, 2, 2, 3, 3, 3, 4, 4, 5, 5, 5]] :
          List (List Int)).length ≤ 64) := by
  have h := C8_stack_depth_bound (cle cmpInt)
    [4, 5, 0, 5, 0, 1, 0, 1, 2, 3, 4, 5, 0, 3, 2, 5, 0, 3, 4, 5]
    [[0, 0, 1, 5], [0, 0, 0, 1, 2, 2, 3, 3, 3, 4, 4, 5, 5, 5]]
    (by decide)
  simpa using h

/-- Claim C6: with the run-stack invariant holding and at least two
stacked runs, the collapse loop merges the two topmost stacked runs
(rather than the new run with its neighbour) exactly when the new run
is strictly longer than both of them — the code's test against `T2`
alone is equivalent — and the run so produced is strictly shorter than
its own right-hand neighbour on the stack, while the rest of the stack
keeps the invariant. -/
theorem C6_three_way_merge {α : Type} (le : α → α → Bool) (s : Bool)
    (run T T2 : List α) (rest : List (List α))
    (hne : AllNE (T :: T2 :: rest)) (hinv : StackInv (T :: T2 :: rest)) :
    ((T2.length < run.length) ↔
      (T.length < run.length ∧ T2.length < run.length)) ∧
    (T2.length < run.length →
      collapseStep le s run T (T2 :: rest) =
        collapseStep le s run (do_merge le T T2) rest) ∧
    (∀ T3 ∈ rest.head?, (do_merge le T T2).length < T3.length) ∧
    StackInv rest := by
  have hTT2 : T.length ≤ T2.length / 2 := (List.chain'_cons.mp hinv).1
  have hchain2 : StackInv (T2 :: rest) := (List.chain'_cons.mp hinv).2
  refine ⟨⟨fun h => ⟨by omega, h⟩, fun h => h.2⟩, ?_, ?_, hchain2.tail⟩
  · intro h
    simp only [collapseStep, if_pos h]
  · intro T3 hT3
    rcases rest with _ | ⟨T3', rest2⟩
    · cases hT3
    · simp only [List.head?_cons, Option.mem_def, Option.some_inj] at hT3
      have hT2T3 : T2.length ≤ T3'.length / 2 :=
        (List.chain'_cons.mp hchain2).1
      have h3 : 1 ≤ T3'.length :=
        ne_nil_length_pos (hne T3' (by simp))
      rw [do_merge_length, ← hT3]
      omega

theorem C6_three_way_merge_witness :
    ((([3, 4] : List Int).length < ([5, 6, 7, 8, 9] : List Int).length) ↔
      ((([1] : List Int).length < ([5, 6, 7, 8, 9] : List Int).length) ∧
        (([3, 4] : List Int).length <
          ([5, 6, 7, 8, 9] : List Int).length))) ∧
    ((([3, 4] : List Int).length < ([5, 6, 7, 8, 9] : List Int).length) →
      collapseStep (cle cmpInt) false [5, 6, 7, 8, 9] [1] [[3, 4]] =
        collapseStep (cle cmpInt) false [5, 6, 7, 8, 9]
          (do_merge (cle cmpInt) [1] [3, 4]) []) ∧
    (∀ T3 ∈ ([] : List (List Int)).head?,
      (do_merge (cle cmpInt) [1] [3, 4]).length < T3.length) ∧
    StackInv ([] : List (List Int)) :=
  C6_three_way_merge (cle cmpInt) false [5, 6, 7, 8, 9] [1] [3, 4] []
    (by intro R hR; rcases List.mem_cons.mp hR with rfl | hR; · simp
        rcases List.mem_cons.mp hR with rfl | hR; · simp
        cases hR)
    (List.chain'_cons.mpr ⟨by norm_num, List.chain'_singleton _⟩)

/-- Claim C7 is refuted as stated: when there is no further input to
the left (`head == items`), the collapse loop does not stop and push;
it merges the new run with its right neighbour and keeps collapsing
until a single run remains.  Concretely, with no further input, new run
`[8, 9]` and stack `[[1, 2]]`, the code returns the single merged run
`[1, 2, 8, 9]` with an empty stack rather than pushing `[8, 9]`. -/
theorem C7_two_way_counterexample :
    collapseStep (cle cmpInt) true [8, 9] [1, 2] [] = ([1, 2, 8, 9], []) ∧
      collapseStep (cle cmpInt) true [8, 9] [1, 2] [] ≠
        ([8, 9], [[1, 2]]) := by
  decide

theorem collapseStep_stack_le {le : α → α → Bool} (s : Bool) :
    ∀ (rest : List (List α)) (run T : List α),
      ((collapseStep le s run T rest).2).length ≤ rest.length + 1
  | [], run, T => by
      by_cases h : s = false ∧ run.length ≤ T.length / 2
      · simp [collapseStep, if_pos h]
      · simp [collapseStep, if_neg h]
  | T2 :: rest, run, T => by
      by_cases h1 : T2.length < run.length
      · simp only [collapseStep, if_pos h1]
        have := @collapseStep_stack_le le s rest run
          (do_merge le T T2)
        simp only [List.length_cons]
        omega
      · simp only [collapseStep, if_neg h1]
        by_cases h2 : s = false ∧ run.length ≤ T.length / 2
        · simp [if_pos h2]
        · simp only [if_neg h2]
          have := @collapseStep_stack_le le s rest
            (do_merge le run T) T2
          simp only [List.length_cons]
          omega

/-- Claim C7 amended: once no 3-way merge applies, the collapse loop
stops and pushes the new run exactly when there is further input to the
left AND the new run's length is at most half its right neighbour's
(`L ≤ R/2`); otherwise it merges the new run with its right neighbour
and repeats, and when the input is exhausted it always keeps merging
until the stack is empty (a single run remains). -/
theorem C7_two_way_amended {α : Type} (le : α → α → Bool)
    (run T : List α) (rest : List (List α))
    (h3 : ∀ T2 ∈ rest.head?, run.length ≤ T2.length) :
    ((collapseStep le false run T rest = (run, T :: rest)) ↔
      run.length ≤ T.length / 2) ∧
    (collapseStep le true run T rest).2 = [] := by
  refine ⟨⟨?_, ?_⟩, collapseStep_atStart_nil rest run T⟩
  · intro heq
    rcases rest with _ | ⟨T2, rest2⟩
    · by_contra hle
      have hcond : ¬ (True ∧ run.length ≤ T.length / 2) :=
        fun hc => hle hc.2
      simp only [collapseStep] at heq
      rw [if_neg hcond] at heq
      have := congrArg (fun p => (Prod.snd p : List (List α)).length) heq
      simp at this
    · have hno3 : ¬ T2.length < run.length := by
        have := h3 T2 (by simp)
        omega
      by_contra hle
      have hcond : ¬ (True ∧ run.length ≤ T.length / 2) :=
        fun hc => hle hc.2
      simp only [collapseStep] at heq
      rw [if_neg hno3, if_neg hcond] at heq
      have hlen := @collapseStep_stack_le _ le false rest2
        (do_merge le run T) T2
      have := congrArg (fun p => (Prod.snd p : List (List α)).length) heq
      simp only [List.length_cons] at this
      omega
  · intro hle
    rcases rest with _ | ⟨T2, rest2⟩
    · simp only [collapseStep]
      rw [if_pos (And.intro trivial hle)]
    · have hno3 : ¬ T2.length < run.length := by
        have := h3 T2 (by simp)
        omega
      simp only [collapseStep]
      rw [if_neg hno3, if_pos (And.intro trivial hle)]

theorem C7_two_way_amended_witness :
    ((collapseStep (cle cmpInt) false [0] [1, 2] [] = ([0], [[1, 2]])) ↔
      ([0] : List Int).length ≤ ([1, 2] : List Int).length / 2) ∧
    (collapseStep (cle cmpInt) true [0] [1, 2] []).2 = [] :=
  C7_two_way_amended (cle cmpInt) [0] [1, 2] []
    (by intro T2 hT2; cases hT2)

/-!
Claim C4: the already-ordered fast path.  The `do_merge` of
src/mergesort.c has no such fast path: it always copies the left run to
the scratch buffer and rewrites it, so "no element is copied or moved"
fails there, although the range contents are left unchanged.  The
hybrid variant's `do_merge` (src/unnamed/part_002) does have the check
and returns with zero moves.
-/

theorem C4_fast_path_counterexample :
    cle cmpInt 1 2 = true ∧
      (do_mergeC (cle cmpInt) [1] [2]).1 = [1, 2] ∧
      (do_mergeC (cle cmpInt) [1] [2]).2.2 ≠ 0 := by
  decide

theorem mergePairC_all_le {le : α → α → Bool} {b : α} {bs : List α} :
    ∀ A : List α, (∀ x ∈ A, le x b = true) →
      (mergePairC le A (b :: bs)).1 = A ++ b :: bs
  | [] => by
      intro _
      simp [mergePairC]
  | x :: xs => by
      intro hall
      have hxb : le x b = true := hall x (by simp)
      have h1 : (b :: bs).takeWhile (fun z => !(le x z)) = [] := by
        simp [List.takeWhile_cons, hxb]
      have h2 : (b :: bs).dropWhile (fun z => !(le x z)) = b :: bs := by
        simp [List.dropWhile_cons, hxb]
      have ih := @mergePairC_all_le le b bs xs
        (fun y hy => hall y (by simp [hy]))
      simp only [mergePairC, h1, h2, ih]
      simp

/-- Claim C4 amended: when the left run's last element is not greater
than the right run's first element, the merged range is left
element-for-element unchanged by both merge engines; the hybrid
variant's `do_merge` (src/unnamed/part_002:86-112), which checks this
condition explicitly, returns immediately after one comparison with no
data movement, whereas the `do_merge` of src/mergesort.c:103-182 still
copies the left run into the scratch buffer and rewrites it in place. -/
theorem C4_fast_path_amended {α : Type} (le : α → α → Bool)
    (htr : TransB le) (htot : TotB le) (a b : α) (as bs : List α)
    (hA : Asc le (a :: as)) (hB : Asc le (b :: bs))
    (hord : le (as.getLastD a) b = true) :
    do_merge2C le (a :: as) (b :: bs) = ((a :: as) ++ (b :: bs), 1, 0) ∧
    (do_mergeC le (a :: as) (b :: bs)).1 = (a :: as) ++ (b :: bs) := by
  constructor
  · show (if le (as.getLastD a) b then ((a :: as) ++ (b :: bs), 1, 0)
      else _) = _
    rw [if_pos hord]
  · have hallb : ∀ x ∈ a :: as, le x b = true := by
      intro x hx
      exact htr x _ b (asc_le_last htr htot as a hA x hx) hord
    have hlast : le a (bs.getLastD b) = true := by
      have h1 : le a b = true := hallb a (by simp)
      have h2 : le b (bs.getLastD b) = true :=
        asc_le_last htr htot bs b hB b (by simp)
      exact htr a b _ h1 h2
    show (if le a (bs.getLastD b) = false then _
      else
        let m := mergePairC le (a :: as) (b :: bs)
        (m.1, m.2.1 + 1, m.2.2 + (a :: as).length)).1 = _
    rw [if_neg (by rw [hlast]; simp)]
    exact mergePairC_all_le (a :: as) hallb

theorem C4_fast_path_amended_witness :
    do_merge2C (cle cmpInt) [1, 3] [4, 5] = (([1, 3] : List Int) ++
      [4, 5], 1, 0) ∧
    (do_mergeC (cle cmpInt) [1, 3] [4, 5]).1 = ([1, 3] : List Int) ++
      [4, 5] :=
  C4_fast_path_amended (cle cmpInt) (cle_trans cmpInt_trans)
    (cle_total cmpInt_antisym) 1 4 [3] [5]
    (List.chain'_cons.mpr ⟨by decide, List.chain'_singleton _⟩)
    (List.chain'_cons.mpr ⟨by decide, List.chain'_singleton _⟩)
    (by decide)

/-!
Claim C9: on an already-ascending input the algorithm performs exactly
N-1 comparisons and no element moves at all.
-/

theorem sortStepC_sorted {le : α → α → Bool} :
    ∀ (r run : List α), run ≠ [] →
      List.Chain' (leP le) (r.reverse ++ run) →
      sortStepC le run [] r = ([r.reverse ++ run], r.length, 0)
  | [], run => by
      intro _ _
      simp [sortStepC, collapseC]
  | x :: r, run => by
      intro hne hch
      rcases run with _ | ⟨h, t⟩
      · exact absurd rfl hne
      · have hco : (x :: r).reverse ++ h :: t =
            r.reverse ++ (x :: h :: t) := by
          simp [List.reverse_cons, List.append_assoc]
        rw [hco] at hch
        have hxh : le x h = true :=
          (List.chain'_cons.mp (List.Chain'.right_of_append hch)).1
        have hcond : le x ((h :: t).headD x) = true := by
          simpa using hxh
        have ih := sortStepC_sorted r (x :: h :: t) (by simp) hch
        show (if le x ((h :: t).headD x) then
          let s := sortStepC le (x :: h :: t) [] r
          (s.1, s.2.1 + 1, s.2.2)
          else _) = _
        rw [if_pos hcond, ih, hco]
        simp

/-- Claim C9: for every already-ascending input sequence of length N,
`mergesort` leaves the sequence unchanged and performs exactly N - 1
comparator calls and zero element moves — O(N) comparisons and O(N)
moves, not O(N log N). -/
theorem C9_sorted_input_linear {α : Type} (le : α → α → Bool)
    (l : List α) (hsorted : List.Chain' (fun a b => le a b = true) l) :
    mergesortC le l = (l, l.length - 1, 0) := by
  unfold mergesortC
  by_cases h : l.length < 2
  · rw [if_pos h]
    have : l.length - 1 = 0 := by omega
    rw [this]
  · rw [if_neg h]
    cases hl : l.reverse with
    | nil =>
        rw [List.reverse_eq_nil_iff] at hl
        subst hl
        simp at h
    | cons x r =>
        have hrl : r.reverse ++ [x] = l := by
          have h1 : (x :: r).reverse = l := by
            rw [← hl, List.reverse_reverse]
          simpa [List.reverse_cons] using h1
        have hs := sortStepC_sorted r [x] (by simp)
          (by rw [hrl]; exact hsorted)
        show (let s := sortStepC le [x] [] r
          (s.1.flatten, s.2.1, s.2.2)) = _
        rw [hs]
        have hlen : l.length = r.length + 1 := by
          have := congrArg List.length hl
          simp only [List.length_reverse, List.length_cons] at this
          omega
        simp [hrl, hlen]

theorem C9_sorted_input_linear_witness :
    mergesortC (cle cmpInt) [1, 2, 3, 4, 5] = ([1, 2, 3, 4, 5], 4, 0) := by
  have h := C9_sorted_input_linear (cle cmpInt) [1, 2, 3, 4, 5]
    (List.chain'_cons.mpr ⟨by decide, List.chain'_cons.mpr ⟨by decide,
      List.chain'_cons.mpr ⟨by decide, List.chain'_cons.mpr ⟨by decide,
        List.chain'_singleton _⟩⟩⟩⟩)
  simpa using h

end AdaptiveMergesort
